import Mathlib

/-!
# Dice Probability Calculator — verification of the probability engine

Shallow embedding of the numeric core of the repository
`achphoenix/Dice-Probability-Calculator`:

* `ProbabilityEngine` (`src/app/services/probability-engine.service.ts`):
  `calculateDistribution`, `calculateBaseDistribution`,
  `calculateAdvantageDisadvantageDistribution`, `calculateGoalProbability`;
* `CalculatorService.calculateGoalResult`
  (`src/app/services/calculator.service.ts`), its input-validation guard in
  `executeCalculation`;
* `formatPercentage` from the probability-table and goal-result components.

Modelling conventions:

* JavaScript double-precision numbers are modelled by exact rationals `ℚ`.
  The spec treats floating-point drift as a tolerance around the exact
  algebraic result; the theorems below are about that exact result, so all
  accumulations are order-independent and exact.
* A JS `Map<number, number>` is modelled as an association list kept sorted
  by key (`PMap`).  The source keeps insertion order and sorts the final
  array ascending by key; since every map in the engine is only read through
  `get`-with-default-0, iterated entry-wise, and finally sorted, a
  canonically sorted association list is observationally identical.
  `addMass k p` is exactly the source's `map.set(k, (map.get(k) || 0) + p)`.
* The mutable cancellation token `{ cancelled: boolean }` is modelled as a
  trace `c : Nat → Bool`: `c i` is the value the flag is observed to hold at
  the i-th read performed by the call.  The source reads the flag at the top
  of every convolution iteration, once before final processing, once after
  the base distribution returns, and at the top of every outer
  advantage/disadvantage iteration; the `await` yield points only give the
  environment a chance to flip the flag and have no other effect, so they
  need no representation beyond the arbitrariness of the trace.
* `async` functions that early-return `[]` on cancellation are modelled with
  `Option`: `none` is the cancelled early return.
* Dice count arrives as an arbitrary (possibly non-positive) integer, sides
  as a natural number; the JS loops `for i = 1..n` run `max 0 n` times,
  which the `Nat`/`Int.toNat` encodings reproduce.
-/

/-- JS `Math.round`: round half toward positive infinity. -/
def jsRound (x : ℚ) : Int := Int.floor (x + 1/2)

/-- `ProbabilityResult` from `models/types`: one row of a distribution. -/
structure ProbabilityResult where
  result : Int
  probability : ℚ
  percentage : ℚ
deriving Repr, DecidableEq

/-- `RollMode` from `models/types`. -/
inductive RollMode
  | normal
  | advantage
  | disadvantage
deriving Repr, DecidableEq

/-- `GoalComparison` from `models/types`. -/
inductive GoalComparison
  | exactly
  | orHigher
  | orLower
deriving Repr, DecidableEq

/-- The engine's working `Map<number, number>` (outcome value ↦ mass),
as an association list sorted strictly by key. -/
abbrev PMap := List (Int × ℚ)

/-- Keys of the map, in list order. -/
def keys (d : PMap) : List Int := d.map Prod.fst

/-- Mass-weighted sum `Σ_(k,p)∈d  w k * p`: the one aggregate all the
invariants are phrased with. -/
def sumBy (w : Int → ℚ) (d : PMap) : ℚ := (d.map (fun e => w e.1 * e.2)).sum

/-- Total probability mass of the map. -/
def totalMass (d : PMap) : ℚ := (d.map Prod.snd).sum

/-- The source's accumulation step
`map.set(k, (map.get(k) || 0) + p)`, on the sorted representation:
add `p` to the mass at key `k`, inserting the key if absent. -/
def addMass (k : Int) (p : ℚ) : PMap → PMap
  | [] => [(k, p)]
  | (k', p') :: rest =>
    if k < k' then (k, p) :: (k', p') :: rest
    else if k = k' then (k', p' + p) :: rest
    else (k', p') :: addMass k p rest

/-- Inner loop of one convolution step: for the existing entry
`(existingValue, existingProb)` and each die face `dieValue ∈ {1..s}`,
accumulate `existingProb * (1/s)` into bucket `existingValue + dieValue`. -/
def addEntryFaces (s : Nat) (ev : Int) (ep : ℚ) (acc : PMap) : PMap :=
  (List.range s).foldl
    (fun a (i : Nat) => addMass (ev + ((i : Int) + 1)) (ep * (1 / s)) a) acc

/-- One convolution step (`calculateBaseDistribution`, body of the
`for die = 2..diceCount` loop): convolve the running distribution with one
more `s`-sided die into a fresh map. -/
def convolveStep (s : Nat) (d : PMap) : PMap :=
  d.foldl (fun acc e => addEntryFaces s e.1 e.2 acc) []

/-- Initialisation `for i = 1..diceType: set(i, 1/diceType)`: the
single-die uniform distribution. -/
def singleDie (s : Nat) : PMap :=
  (List.range s).foldl (fun a (i : Nat) => addMass ((i : Int) + 1) (1 / s) a) []

/-- The `for die = 2; die <= diceCount` convolution loop with its
cancellation check at the top of each iteration.  `rem` is the number of
iterations still to run, `i` the index of the next flag read; `none` models
the early `return []`. -/
def convolveLoop (s : Nat) (c : Nat → Bool) : Nat → Nat → PMap → Option PMap
  | 0, _, d => some d
  | rem + 1, i, d =>
    if c i then none
    else convolveLoop s c rem (i + 1) (convolveStep s d)

/-- `resultsWithModifier`: shift every key by `modifier`, masses unchanged.
The source writes each shifted entry into a fresh map with `set`; the keys
`value + modifier` are pairwise distinct, so each `set` is an insertion of a
fresh key, i.e. `addMass` on a key that is absent. -/
def applyModifier (m : Int) (d : PMap) : PMap :=
  d.foldl (fun acc e => addMass (e.1 + m) e.2 acc) []

/-- Map-to-array conversion shared by the base and advantage paths: one
`ProbabilityResult` per entry with `percentage = Math.round(p*1000)/10`,
then `results.sort((a, b) => a.result - b.result)`. -/
def toResults (d : PMap) : List ProbabilityResult :=
  (d.map (fun e =>
    { result := e.1, probability := e.2,
      percentage := (jsRound (e.2 * 1000) : ℚ) / 10 : ProbabilityResult })).mergeSort
    (fun a b => a.result ≤ b.result)

/-- `calculateBaseDistribution(diceCount, diceType, modifier, cancelSignal)`.
The convolution loop runs `(diceCount - 1)⁺` times (not at all when
`diceCount ≤ 1`); after it, the flag is checked once more before the
modifier shift and conversion. -/
def calculateBaseDistribution (diceCount : Int) (diceType : Nat)
    (modifier : Int) (c : Nat → Bool) : List ProbabilityResult :=
  match convolveLoop diceType c (diceCount - 1).toNat 0 (singleDie diceType) with
  | none => []
  | some d =>
    if c (diceCount - 1).toNat then []
    else toResults (applyModifier modifier d)

/-- The value taken from one ordered pair of rolls:
`max` under advantage, `min` otherwise (the source's ternary). -/
def takenValue (mode : RollMode) (a b : Int) : Int :=
  if mode = RollMode.advantage then max a b else min a b

/-- Inner loop of `calculateAdvantageDisadvantageDistribution`: for a fixed
`first` roll, accumulate `first.probability * second.probability` into
bucket `takenValue` for every `second` roll. -/
def advInner (mode : RollMode) (first : ProbabilityResult)
    (base : List ProbabilityResult) (acc : PMap) : PMap :=
  base.foldl (fun a second =>
    addMass (takenValue mode first.result second.result)
      (first.probability * second.probability) a) acc

/-- Outer loop of `calculateAdvantageDisadvantageDistribution`, with its
cancellation check at the top of each iteration (`i` = next flag read). -/
def advOuter (mode : RollMode) (base : List ProbabilityResult)
    (c : Nat → Bool) : List ProbabilityResult → Nat → PMap → Option PMap
  | [], _, acc => some acc
  | first :: rest, i, acc =>
    if c i then none
    else advOuter mode base c rest (i + 1) (advInner mode first base acc)

/-- `calculateAdvantageDisadvantageDistribution(baseDistribution, rollMode,
cancelSignal)`: pairwise max/min bucketing, then the shared conversion. -/
def calculateAdvantageDisadvantageDistribution (base : List ProbabilityResult)
    (mode : RollMode) (c : Nat → Bool) : List ProbabilityResult :=
  match advOuter mode base c base 0 [] with
  | none => []
  | some d => toResults d

/-- `calculateDistribution(diceCount, diceType, modifier, rollMode,
cancelSignal)`: base distribution, the
`cancelSignal.cancelled || baseDistribution.length === 0` guard, then the
mode dispatch.  Flag reads continue the base call's numbering: the base
path performs at most `(diceCount - 1)⁺ + 1` reads, the guard is the next
read, and the advantage path's reads follow it. -/
def calculateDistribution (diceCount : Int) (diceType : Nat) (modifier : Int)
    (mode : RollMode) (c : Nat → Bool) : List ProbabilityResult :=
  let base := calculateBaseDistribution diceCount diceType modifier c
  if c ((diceCount - 1).toNat + 1) = true ∨ base = [] then []
  else if mode = RollMode.normal then base
  else
    calculateAdvantageDisadvantageDistribution base mode
      (fun i => c ((diceCount - 1).toNat + 2 + i))

/-- `calculateGoalProbability(results, goalNumber, comparison)`: fold over
the rows, adding the probability of every row selected by the comparison. -/
def calculateGoalProbability (results : List ProbabilityResult)
    (goalNumber : Int) (comparison : GoalComparison) : ℚ :=
  results.foldl (fun totalProbability r =>
    let includeResult : Bool :=
      match comparison with
      | .exactly => r.result == goalNumber
      | .orHigher => decide (goalNumber ≤ r.result)
      | .orLower => decide (r.result ≤ goalNumber)
    if includeResult then totalProbability + r.probability
    else totalProbability) 0

/-- `GoalResult` from `models/types`. -/
structure GoalResult where
  goalNumber : Int
  comparison : GoalComparison
  probability : ℚ
  percentage : ℚ
  displayText : String
deriving Repr, DecidableEq

/-- `CalculatorService.calculateGoalResult` (pure core): bail out to `null`
when there are no results, otherwise aggregate, round at the presentation
boundary, and build the display text. -/
def calculateGoalResult (results : List ProbabilityResult) (goal : Int)
    (comparison : GoalComparison) : Option GoalResult :=
  if results = [] then none
  else
    let probability := calculateGoalProbability results goal comparison
    let percentage := (jsRound (probability * 1000) : ℚ) / 10
    let displayText :=
      match comparison with
      | .exactly => s!"{goal} exactly"
      | .orHigher => s!"{goal} or higher"
      | .orLower => s!"{goal} or lower"
    some { goalNumber := goal, comparison := comparison,
           probability := probability, percentage := percentage,
           displayText := displayText }

/-- The input-validation guard of `CalculatorService.executeCalculation`:
`count <= 0 || count > 100 || type === null` refuses the calculation (the
engine is never invoked and the results are set to `[]`). -/
def executeCalculationRejects (count : Int) (diceType : Option Nat) : Bool :=
  count ≤ 0 || count > 100 || diceType == none

/-- JS `Number.prototype.toFixed(1)` on the engine's percentages (which are
exact multiples of 1/10, so no further rounding occurs). -/
def toFixed1 (q : ℚ) : String :=
  let n := jsRound (q * 10)
  s!"{n / 10}.{n % 10}"

/-- `formatPercentage(probability, percentage)` from the probability-table
and goal-result components. -/
def formatPercentage (probability : ℚ) (percentage : ℚ) : String :=
  if 0 < probability ∧ probability < 1/1000 then "<0.1"
  else toFixed1 percentage

/-- The list of consecutive integers `lo, lo+1, …, hi`. -/
def intRange (lo hi : Int) : List Int :=
  (List.range (hi + 1 - lo).toNat).map (fun (i : Nat) => lo + (i : Int))

/-! ## Infrastructure: `addMass`, folds, and key ranges -/

lemma addMass_cons_lt {k k' : Int} {p p' : ℚ} {rest : PMap} (h : k < k') :
    addMass k p ((k', p') :: rest) = (k, p) :: (k', p') :: rest := by
  simp [addMass, h]

lemma addMass_cons_eq {k : Int} {p p' : ℚ} {rest : PMap} :
    addMass k p ((k, p') :: rest) = (k, p' + p) :: rest := by
  simp [addMass]

lemma addMass_cons_gt {k k' : Int} {p p' : ℚ} {rest : PMap} (h : k' < k) :
    addMass k p ((k', p') :: rest) = (k', p') :: addMass k p rest := by
  have h1 : ¬ k < k' := by omega
  have h2 : ¬ k = k' := by omega
  simp [addMass, h1, h2]

lemma sumBy_cons (w : Int → ℚ) (e : Int × ℚ) (d : PMap) :
    sumBy w (e :: d) = w e.1 * e.2 + sumBy w d := by
  simp [sumBy]

lemma keys_cons (e : Int × ℚ) (d : PMap) : keys (e :: d) = e.1 :: keys d := by
  simp [keys]

lemma sumBy_addMass (w : Int → ℚ) (k : Int) (p : ℚ) :
    ∀ d : PMap, sumBy w (addMass k p d) = sumBy w d + w k * p := by
  intro d
  induction d with
  | nil => simp [addMass, sumBy]
  | cons e rest ih =>
    obtain ⟨k', p'⟩ := e
    rcases lt_trichotomy k k' with h | h | h
    · rw [addMass_cons_lt h, sumBy_cons, sumBy_cons]
      ring
    · subst h
      rw [addMass_cons_eq, sumBy_cons, sumBy_cons]
      ring
    · rw [addMass_cons_gt h, sumBy_cons, sumBy_cons, ih]
      ring

lemma mem_keys_addMass (k a : Int) (p : ℚ) :
    ∀ d : PMap, a ∈ keys (addMass k p d) ↔ a = k ∨ a ∈ keys d := by
  intro d
  induction d with
  | nil => simp [addMass, keys]
  | cons e rest ih =>
    obtain ⟨k', p'⟩ := e
    rcases lt_trichotomy k k' with h | h | h
    · rw [addMass_cons_lt h]
      simp only [keys, List.map_cons, List.mem_cons]
    · subst h
      rw [addMass_cons_eq]
      simp only [keys, List.map_cons, List.mem_cons]
      tauto
    · rw [addMass_cons_gt h]
      simp only [keys, List.map_cons, List.mem_cons] at ih ⊢
      rw [ih]
      tauto

lemma sorted_keys_addMass (k : Int) (p : ℚ) :
    ∀ d : PMap, (keys d).Sorted (· < ·) →
      (keys (addMass k p d)).Sorted (· < ·) := by
  intro d
  induction d with
  | nil =>
    intro _
    simp [addMass, keys]
  | cons e rest ih =>
    obtain ⟨k', p'⟩ := e
    intro hs
    rw [keys_cons, List.sorted_cons] at hs
    obtain ⟨hlt, hrest⟩ := hs
    rcases lt_trichotomy k k' with h | h | h
    · rw [addMass_cons_lt h, keys_cons, keys_cons, List.sorted_cons,
        List.sorted_cons]
      refine ⟨?_, hlt, hrest⟩
      intro b hb
      rcases List.mem_cons.mp hb with rfl | hb'
      · exact h
      · exact lt_trans h (hlt b hb')
    · subst h
      rw [addMass_cons_eq, keys_cons, List.sorted_cons]
      exact ⟨hlt, hrest⟩
    · rw [addMass_cons_gt h, keys_cons, List.sorted_cons]
      refine ⟨?_, ih hrest⟩
      intro b hb
      rcases (mem_keys_addMass k b p rest).mp hb with rfl | hb'
      · omega
      · exact hlt b hb'

lemma addMass_of_gt (k : Int) (p : ℚ) :
    ∀ d : PMap, (∀ a ∈ keys d, a < k) → addMass k p d = d ++ [(k, p)] := by
  intro d
  induction d with
  | nil => simp [addMass]
  | cons e rest ih =>
    obtain ⟨k', p'⟩ := e
    intro h
    have hk' : k' < k := h k' (by simp [keys])
    have hrest : ∀ a ∈ keys rest, a < k := by
      intro a ha
      refine h a ?_
      rw [keys_cons, List.mem_cons]
      exact Or.inr ha
    rw [addMass_cons_gt hk', ih hrest, List.cons_append]

lemma sumBy_foldl {α : Type} (w : Int → ℚ) (f : PMap → α → PMap) (g : α → ℚ)
    (hf : ∀ d x, sumBy w (f d x) = sumBy w d + g x) :
    ∀ (L : List α) (d : PMap),
      sumBy w (L.foldl f d) = sumBy w d + (L.map g).sum := by
  intro L
  induction L with
  | nil => simp
  | cons x rest ih =>
    intro d
    simp only [List.foldl_cons, List.map_cons, List.sum_cons]
    rw [ih, hf]
    ring

lemma mem_keys_foldl {α : Type} (f : PMap → α → PMap) (K : α → Int → Prop)
    (hf : ∀ d x a, a ∈ keys (f d x) ↔ K x a ∨ a ∈ keys d) :
    ∀ (L : List α) (d : PMap) (a : Int),
      a ∈ keys (L.foldl f d) ↔ (∃ x ∈ L, K x a) ∨ a ∈ keys d := by
  intro L
  induction L with
  | nil => simp
  | cons x rest ih =>
    intro d a
    simp only [List.foldl_cons, List.mem_cons]
    rw [ih, hf]
    constructor
    · rintro (⟨y, hy, hK⟩ | hKx | hd)
      · exact Or.inl ⟨y, Or.inr hy, hK⟩
      · exact Or.inl ⟨x, Or.inl rfl, hKx⟩
      · exact Or.inr hd
    · rintro (⟨y, rfl | hy, hK⟩ | hd)
      · exact Or.inr (Or.inl hK)
      · exact Or.inl ⟨y, hy, hK⟩
      · exact Or.inr (Or.inr hd)

lemma sorted_keys_foldl {α : Type} (f : PMap → α → PMap)
    (hf : ∀ d x, (keys d).Sorted (· < ·) → (keys (f d x)).Sorted (· < ·)) :
    ∀ (L : List α) (d : PMap), (keys d).Sorted (· < ·) →
      (keys (L.foldl f d)).Sorted (· < ·) := by
  intro L
  induction L with
  | nil =>
    intro d h
    simpa using h
  | cons x rest ih =>
    intro d h
    exact ih _ (hf _ _ h)

lemma mem_intRange (lo hi a : Int) : a ∈ intRange lo hi ↔ lo ≤ a ∧ a ≤ hi := by
  unfold intRange
  simp only [List.mem_map, List.mem_range]
  constructor
  · rintro ⟨i, hilt, heq⟩
    omega
  · rintro ⟨h1, h2⟩
    exact ⟨(a - lo).toNat, by omega, by omega⟩

lemma sorted_intRange (lo hi : Int) : (intRange lo hi).Sorted (· < ·) := by
  unfold intRange
  exact List.Pairwise.map _ (fun a b h => by omega) (List.pairwise_lt_range _)

lemma sorted_eq_intRange (l : List Int) (lo hi : Int)
    (hs : l.Sorted (· < ·)) (hm : ∀ a, a ∈ l ↔ lo ≤ a ∧ a ≤ hi) :
    l = intRange lo hi := by
  haveI : IsAntisymm Int (· < ·) := ⟨fun a b h1 h2 => by omega⟩
  have hnd : l.Nodup := hs.nodup
  have hnd' : (intRange lo hi).Nodup := (sorted_intRange lo hi).nodup
  have hperm : l.Perm (intRange lo hi) := by
    rw [List.perm_ext_iff_of_nodup hnd hnd']
    intro a
    rw [hm, mem_intRange]
  exact List.eq_of_perm_of_sorted hperm hs (sorted_intRange lo hi)

lemma intRange_map_add (lo hi m : Int) :
    (intRange lo hi).map (fun k => k + m) = intRange (lo + m) (hi + m) := by
  unfold intRange
  rw [List.map_map]
  have harg : hi + m + 1 - (lo + m) = hi + 1 - lo := by omega
  rw [harg]
  apply List.map_congr_left
  intro i _
  simp only [Function.comp_apply]
  omega

/-- Folding `addMass` over elements with strictly increasing keys, starting
from a map whose keys all precede them, just appends the entries in order. -/
lemma foldl_addMass_increasing {α : Type} (key : α → Int) (val : α → ℚ) :
    ∀ (L : List α) (acc : PMap),
      (keys acc ++ L.map key).Sorted (· < ·) →
      L.foldl (fun d x => addMass (key x) (val x) d) acc
        = acc ++ L.map (fun x => (key x, val x)) := by
  intro L
  induction L with
  | nil =>
    intro acc _
    simp
  | cons x rest ih =>
    intro acc hsort
    have hx : ∀ a ∈ keys acc, a < key x := by
      intro a ha
      exact (List.pairwise_append.mp hsort).2.2 a ha (key x)
        (by simp [List.map_cons])
    have hstep : addMass (key x) (val x) acc = acc ++ [(key x, val x)] :=
      addMass_of_gt _ _ _ hx
    have hkeys : keys (acc ++ [(key x, val x)]) = keys acc ++ [key x] := by
      simp [keys]
    have hsort' :
        (keys (acc ++ [(key x, val x)]) ++ rest.map key).Sorted (· < ·) := by
      rw [hkeys, List.append_assoc, List.singleton_append]
      simpa [List.map_cons] using hsort
    calc (x :: rest).foldl (fun d y => addMass (key y) (val y) d) acc
        = rest.foldl (fun d y => addMass (key y) (val y) d)
            (acc ++ [(key x, val x)]) := by rw [List.foldl_cons, hstep]
      _ = acc ++ [(key x, val x)] ++ rest.map (fun y => (key y, val y)) :=
          ih _ hsort'
      _ = acc ++ (x :: rest).map (fun y => (key y, val y)) := by
          simp [List.map_cons]

/-- The single-die initialisation in explicit form: the uniform map over
`{1..s}` in ascending key order. -/
lemma singleDie_eq (s : Nat) :
    singleDie s = (intRange 1 s).map (fun k => (k, (1 : ℚ) / s)) := by
  unfold singleDie
  have hsort :
      (keys ([] : PMap)
        ++ (List.range s).map (fun i : Nat => (i : Int) + 1)).Sorted (· < ·) := by
    simp only [keys, List.map_nil, List.nil_append]
    exact List.Pairwise.map _ (fun a b hab => by omega) (List.pairwise_lt_range s)
  rw [foldl_addMass_increasing (fun i : Nat => (i : Int) + 1)
    (fun _ => (1 : ℚ) / s) (List.range s) [] hsort]
  rw [List.nil_append]
  unfold intRange
  have harg : ((s : Int) + 1 - 1).toNat = s := by omega
  rw [harg, List.map_map]
  apply List.map_congr_left
  intro i _
  simp only [Function.comp_apply]
  rw [Prod.mk.injEq]
  constructor
  · omega
  · rfl

/-- The modifier shift in explicit form on a sorted map: shift every key,
keep every mass, preserve the order. -/
lemma applyModifier_eq (m : Int) (d : PMap) (hs : (keys d).Sorted (· < ·)) :
    applyModifier m d = d.map (fun e => (e.1 + m, e.2)) := by
  unfold applyModifier
  have hpw : d.Pairwise (fun e e' : Int × ℚ => e.1 < e'.1) := by
    rw [keys] at hs
    exact List.pairwise_map.mp hs
  have hsort :
      (keys ([] : PMap)
        ++ d.map (fun e : Int × ℚ => e.1 + m)).Sorted (· < ·) := by
    simp only [keys, List.map_nil, List.nil_append]
    exact List.Pairwise.map _ (fun a b hab => by omega) hpw
  rw [foldl_addMass_increasing (fun e : Int × ℚ => e.1 + m)
    (fun e : Int × ℚ => e.2) d [] hsort]
  simp

/-! ## Characterising the convolution -/

lemma sumBy_addEntryFaces (w : Int → ℚ) (s : Nat) (ev : Int) (ep : ℚ)
    (acc : PMap) :
    sumBy w (addEntryFaces s ev ep acc)
      = sumBy w acc
        + ((List.range s).map
            (fun i : Nat => w (ev + ((i : Int) + 1)) * (ep * (1 / s)))).sum := by
  unfold addEntryFaces
  exact sumBy_foldl w _ _
    (fun d (i : Nat) => sumBy_addMass w (ev + ((i : Int) + 1)) (ep * (1 / s)) d)
    (List.range s) acc

lemma sumBy_convolveStep (w : Int → ℚ) (s : Nat) (d : PMap) :
    sumBy w (convolveStep s d)
      = (d.map (fun e =>
          ((List.range s).map
            (fun i : Nat => w (e.1 + ((i : Int) + 1)) * (e.2 * (1 / s)))).sum)).sum := by
  unfold convolveStep
  have h := sumBy_foldl w (fun acc (e : Int × ℚ) => addEntryFaces s e.1 e.2 acc)
    (fun e : Int × ℚ =>
      ((List.range s).map
        (fun i : Nat => w (e.1 + ((i : Int) + 1)) * (e.2 * (1 / s)))).sum)
    (fun acc e => sumBy_addEntryFaces w s e.1 e.2 acc) d []
  rw [h]
  simp [sumBy]

lemma totalMass_eq_sumBy_one (d : PMap) : totalMass d = sumBy (fun _ => 1) d := by
  unfold totalMass sumBy
  congr 1
  apply List.map_congr_left
  intro e _
  ring

lemma totalMass_convolveStep (s : Nat) (hs : 1 ≤ s) (d : PMap) :
    totalMass (convolveStep s d) = totalMass d := by
  rw [totalMass_eq_sumBy_one, sumBy_convolveStep]
  have hterm : ∀ e : Int × ℚ,
      ((List.range s).map
        (fun _ : Nat => (1 : ℚ) * (e.2 * (1 / s)))).sum = e.2 := by
    intro e
    rw [show (fun _ : Nat => (1 : ℚ) * (e.2 * (1 / s)))
        = Function.const Nat ((1 : ℚ) * (e.2 * (1 / s))) from rfl]
    rw [List.map_const, List.sum_replicate, List.length_range, nsmul_eq_mul]
    have hne : (s : ℚ) ≠ 0 := Nat.cast_ne_zero.mpr (by omega)
    field_simp
  calc (d.map (fun e =>
        ((List.range s).map
          (fun i : Nat => (1 : ℚ) * (e.2 * (1 / s)))).sum)).sum
      = (d.map (fun e => e.2)).sum := by
        congr 1
        exact List.map_congr_left (fun e _ => hterm e)
    _ = totalMass d := rfl

lemma mem_keys_addEntryFaces (s : Nat) (ev : Int) (ep : ℚ) (acc : PMap)
    (a : Int) :
    a ∈ keys (addEntryFaces s ev ep acc)
      ↔ (∃ i : Nat, i < s ∧ a = ev + ((i : Int) + 1)) ∨ a ∈ keys acc := by
  unfold addEntryFaces
  have h := mem_keys_foldl
    (fun d (i : Nat) => addMass (ev + ((i : Int) + 1)) (ep * (1 / s)) d)
    (fun (i : Nat) a => a = ev + ((i : Int) + 1))
    (fun d i a => mem_keys_addMass _ a _ d) (List.range s) acc a
  rw [h]
  simp [List.mem_range]

lemma mem_keys_convolveStep (s : Nat) (d : PMap) (a : Int) :
    a ∈ keys (convolveStep s d)
      ↔ ∃ e ∈ d, ∃ i : Nat, i < s ∧ a = e.1 + ((i : Int) + 1) := by
  unfold convolveStep
  have h := mem_keys_foldl
    (fun acc (e : Int × ℚ) => addEntryFaces s e.1 e.2 acc)
    (fun (e : Int × ℚ) a => ∃ i : Nat, i < s ∧ a = e.1 + ((i : Int) + 1))
    (fun acc e a => mem_keys_addEntryFaces s e.1 e.2 acc a) d [] a
  rw [h]
  simp [keys]

lemma sorted_keys_addEntryFaces (s : Nat) (ev : Int) (ep : ℚ) (acc : PMap)
    (h : (keys acc).Sorted (· < ·)) :
    (keys (addEntryFaces s ev ep acc)).Sorted (· < ·) := by
  unfold addEntryFaces
  exact sorted_keys_foldl _ (fun d i hd => sorted_keys_addMass _ _ d hd)
    (List.range s) acc h

lemma sorted_keys_convolveStep (s : Nat) (d : PMap) :
    (keys (convolveStep s d)).Sorted (· < ·) := by
  unfold convolveStep
  exact sorted_keys_foldl _
    (fun acc e hacc => sorted_keys_addEntryFaces s e.1 e.2 acc hacc) d []
    (by simp [keys])

/-- One convolution step moves the (contiguous) key range `[lo, hi]` to
`[lo+1, hi+s]`. -/
lemma keys_convolveStep_range (s : Nat) (hs : 1 ≤ s) (d : PMap) (lo hi : Int)
    (hlohi : lo ≤ hi) (hd : ∀ a, a ∈ keys d ↔ lo ≤ a ∧ a ≤ hi) :
    ∀ a, a ∈ keys (convolveStep s d) ↔ lo + 1 ≤ a ∧ a ≤ hi + s := by
  intro a
  rw [mem_keys_convolveStep]
  constructor
  · rintro ⟨e, he, i, hi', rfl⟩
    have hk : e.1 ∈ keys d := by
      rw [keys]
      exact List.mem_map.mpr ⟨e, he, rfl⟩
    have := (hd e.1).mp hk
    omega
  · rintro ⟨h1, h2⟩
    by_cases hcase : a - 1 ≤ hi
    · have hv : (a - 1) ∈ keys d := (hd (a - 1)).mpr ⟨by omega, hcase⟩
      rw [keys] at hv
      obtain ⟨e, he, heq⟩ := List.mem_map.mp hv
      exact ⟨e, he, 0, by omega, by omega⟩
    · have hv : hi ∈ keys d := (hd hi).mpr ⟨hlohi, le_refl hi⟩
      rw [keys] at hv
      obtain ⟨e, he, heq⟩ := List.mem_map.mp hv
      exact ⟨e, he, (a - hi - 1).toNat, by omega, by omega⟩

/-! ## The convolution loop, the iterate invariants, and `toResults` -/

lemma convolveLoop_of_never (s : Nat) (c : Nat → Bool)
    (hc : ∀ j, c j = false) :
    ∀ (rem i : Nat) (d : PMap),
      convolveLoop s c rem i d = some ((convolveStep s)^[rem] d) := by
  intro rem
  induction rem with
  | zero =>
    intro i d
    simp [convolveLoop]
  | succ r ih =>
    intro i d
    rw [convolveLoop, hc i]
    simp only [Bool.false_eq_true, if_false]
    rw [ih, Function.iterate_succ_apply]

lemma convolveLoop_dichotomy (s : Nat) (c : Nat → Bool) :
    ∀ (rem i : Nat) (d : PMap),
      convolveLoop s c rem i d = none
        ∨ convolveLoop s c rem i d = some ((convolveStep s)^[rem] d) := by
  intro rem
  induction rem with
  | zero =>
    intro i d
    right
    simp [convolveLoop]
  | succ r ih =>
    intro i d
    rw [convolveLoop]
    by_cases h : c i
    · left
      simp [h]
    · simp only [h, Bool.false_eq_true, if_false]
      rw [Function.iterate_succ_apply]
      exact ih (i + 1) (convolveStep s d)

lemma convolveLoop_of_all_true (s : Nat) (c : Nat → Bool)
    (hc : ∀ j, c j = true) (rem i : Nat) (d : PMap) (hrem : 1 ≤ rem) :
    convolveLoop s c rem i d = none := by
  match rem, hrem with
  | r + 1, _ =>
    rw [convolveLoop, hc i]
    simp

lemma length_intRange (lo hi : Int) :
    (intRange lo hi).length = (hi + 1 - lo).toNat := by
  unfold intRange
  rw [List.length_map, List.length_range]

lemma sorted_keys_singleDie (s : Nat) :
    (keys (singleDie s)).Sorted (· < ·) := by
  rw [singleDie_eq, keys, List.map_map]
  have : ((fun e : Int × ℚ => e.1) ∘ fun k => (k, (1 : ℚ) / s))
      = fun k : Int => k := rfl
  rw [this, List.map_id']
  exact sorted_intRange 1 s

lemma mem_keys_singleDie (s : Nat) (a : Int) :
    a ∈ keys (singleDie s) ↔ 1 ≤ a ∧ a ≤ s := by
  rw [singleDie_eq, keys, List.map_map]
  have : ((fun e : Int × ℚ => e.1) ∘ fun k => (k, (1 : ℚ) / s))
      = fun k : Int => k := rfl
  rw [this, List.map_id']
  exact mem_intRange 1 s a

lemma totalMass_singleDie (s : Nat) (hs : 1 ≤ s) :
    totalMass (singleDie s) = 1 := by
  rw [singleDie_eq]
  unfold totalMass
  rw [List.map_map]
  have hconst : ((fun e : Int × ℚ => e.2) ∘ fun k : Int => (k, (1 : ℚ) / s))
      = Function.const Int ((1 : ℚ) / s) := rfl
  rw [hconst, List.map_const, List.sum_replicate, length_intRange]
  have harg : ((s : Int) + 1 - 1).toNat = s := by omega
  rw [harg, nsmul_eq_mul]
  have hne : (s : ℚ) ≠ 0 := Nat.cast_ne_zero.mpr (by omega)
  field_simp

lemma sorted_keys_iterate (s : Nat) (k : Nat) :
    (keys ((convolveStep s)^[k] (singleDie s))).Sorted (· < ·) := by
  cases k with
  | zero => exact sorted_keys_singleDie s
  | succ r =>
    rw [Function.iterate_succ_apply']
    exact sorted_keys_convolveStep s _

lemma totalMass_iterate (s : Nat) (hs : 1 ≤ s) (k : Nat) :
    totalMass ((convolveStep s)^[k] (singleDie s)) = 1 := by
  induction k with
  | zero => exact totalMass_singleDie s hs
  | succ r ih =>
    rw [Function.iterate_succ_apply', totalMass_convolveStep s hs, ih]

lemma mem_keys_iterate (s : Nat) (hs : 1 ≤ s) (k : Nat) :
    ∀ a, a ∈ keys ((convolveStep s)^[k] (singleDie s))
      ↔ 1 + (k : Int) ≤ a ∧ a ≤ (s : Int) + (k : Int) * s := by
  induction k with
  | zero =>
    intro a
    rw [Function.iterate_zero_apply, mem_keys_singleDie]
    constructor <;> (intro h; constructor <;> omega)
  | succ r ih =>
    intro a
    rw [Function.iterate_succ_apply']
    have hs' : (1 : Int) ≤ (s : Int) := by exact_mod_cast hs
    have hlohi : 1 + (r : Int) ≤ (s : Int) + (r : Int) * s := by nlinarith
    rw [keys_convolveStep_range s hs _ _ _ hlohi ih a]
    constructor <;> (rintro ⟨h1, h2⟩; push_cast; push_cast at h1 h2; constructor <;> nlinarith)

lemma toResults_of_sorted (d : PMap) (hs : (keys d).Sorted (· < ·)) :
    toResults d = d.map (fun e =>
      { result := e.1, probability := e.2,
        percentage := (jsRound (e.2 * 1000) : ℚ) / 10 : ProbabilityResult }) := by
  unfold toResults
  apply List.mergeSort_of_sorted
  have hpw : d.Pairwise (fun e e' : Int × ℚ => e.1 < e'.1) := by
    rw [keys] at hs
    exact List.pairwise_map.mp hs
  refine List.Pairwise.map _ ?_ hpw
  intro e e' h
  simp only [decide_eq_true_eq]
  omega

lemma keys_map_shift (d : PMap) (m : Int) :
    keys (d.map (fun e : Int × ℚ => (e.1 + m, e.2)))
      = (keys d).map (fun k => k + m) := by
  unfold keys
  rw [List.map_map, List.map_map]
  rfl

lemma sorted_keys_map_shift (d : PMap) (m : Int)
    (hs : (keys d).Sorted (· < ·)) :
    (keys (d.map (fun e : Int × ℚ => (e.1 + m, e.2)))).Sorted (· < ·) := by
  rw [keys_map_shift]
  exact List.Pairwise.map _ (fun a b h => by omega) hs

/-- `calculateBaseDistribution` with a never-cancelled flag, in closed form:
one row per entry of the modifier-shifted iterated convolution. -/
lemma calculateBaseDistribution_never (n : Int) (s : Nat) (m : Int) :
    calculateBaseDistribution n s m (fun _ => false)
      = ((convolveStep s)^[(n - 1).toNat] (singleDie s)).map (fun e =>
          { result := e.1 + m, probability := e.2,
            percentage := (jsRound (e.2 * 1000) : ℚ) / 10
            : ProbabilityResult }) := by
  unfold calculateBaseDistribution
  have hloop := convolveLoop_of_never s (fun _ => false) (fun _ => rfl)
    (n - 1).toNat 0 (singleDie s)
  simp only [hloop, Bool.false_eq_true, if_false]
  rw [applyModifier_eq m _ (sorted_keys_iterate s (n - 1).toNat),
    toResults_of_sorted _
      (sorted_keys_map_shift _ m (sorted_keys_iterate s (n - 1).toNat)),
    List.map_map]
  rfl

/-! ## The advantage/disadvantage transform -/

lemma advOuter_of_never (mode : RollMode) (base : List ProbabilityResult)
    (c : Nat → Bool) (hc : ∀ j, c j = false) :
    ∀ (L : List ProbabilityResult) (i : Nat) (acc : PMap),
      advOuter mode base c L i acc
        = some (L.foldl (fun a first => advInner mode first base a) acc) := by
  intro L
  induction L with
  | nil =>
    intro i acc
    simp [advOuter]
  | cons first rest ih =>
    intro i acc
    rw [advOuter, hc i]
    simp only [Bool.false_eq_true, if_false]
    rw [ih, List.foldl_cons]

lemma advOuter_dichotomy (mode : RollMode) (base : List ProbabilityResult)
    (c : Nat → Bool) :
    ∀ (L : List ProbabilityResult) (i : Nat) (acc : PMap),
      advOuter mode base c L i acc = none
        ∨ advOuter mode base c L i acc
            = some (L.foldl (fun a first => advInner mode first base a) acc) := by
  intro L
  induction L with
  | nil =>
    intro i acc
    right
    simp [advOuter]
  | cons first rest ih =>
    intro i acc
    rw [advOuter]
    by_cases h : c i
    · left
      simp [h]
    · simp only [h, Bool.false_eq_true, if_false]
      rw [List.foldl_cons]
      exact ih (i + 1) (advInner mode first base acc)

lemma sumBy_advInner (w : Int → ℚ) (mode : RollMode)
    (first : ProbabilityResult) (base : List ProbabilityResult) (acc : PMap) :
    sumBy w (advInner mode first base acc)
      = sumBy w acc
        + (base.map (fun second =>
            w (takenValue mode first.result second.result)
              * (first.probability * second.probability))).sum := by
  unfold advInner
  exact sumBy_foldl w _ _
    (fun d second => sumBy_addMass w
      (takenValue mode first.result second.result)
      (first.probability * second.probability) d) base acc

lemma sumBy_advFold (w : Int → ℚ) (mode : RollMode)
    (base : List ProbabilityResult) :
    sumBy w (base.foldl (fun a first => advInner mode first base a) [])
      = (base.map (fun first =>
          (base.map (fun second =>
            w (takenValue mode first.result second.result)
              * (first.probability * second.probability))).sum)).sum := by
  have h := sumBy_foldl w (fun a (first : ProbabilityResult) => advInner mode first base a)
    (fun first =>
      (base.map (fun second =>
        w (takenValue mode first.result second.result)
          * (first.probability * second.probability))).sum)
    (fun acc first => sumBy_advInner w mode first base acc) base []
  rw [h]
  simp [sumBy]

/-! ## `toResults` as a view: membership and sums -/

lemma toResults_perm (d : PMap) :
    (toResults d).Perm (d.map (fun e =>
      { result := e.1, probability := e.2,
        percentage := (jsRound (e.2 * 1000) : ℚ) / 10 : ProbabilityResult })) := by
  unfold toResults
  exact List.mergeSort_perm _ _

lemma mem_toResults (d : PMap) (r : ProbabilityResult) :
    r ∈ toResults d ↔ ∃ e ∈ d,
      r = { result := e.1, probability := e.2,
            percentage := (jsRound (e.2 * 1000) : ℚ) / 10 : ProbabilityResult } := by
  unfold toResults
  rw [List.mem_mergeSort, List.mem_map]
  constructor
  · rintro ⟨e, he, rfl⟩
    exact ⟨e, he, rfl⟩
  · rintro ⟨e, he, rfl⟩
    exact ⟨e, he, rfl⟩

lemma sum_probability_toResults (d : PMap) :
    ((toResults d).map (fun r => r.probability)).sum = totalMass d := by
  have hperm := (toResults_perm d).map (fun r : ProbabilityResult => r.probability)
  rw [hperm.sum_eq]
  unfold totalMass
  rw [List.map_map]
  rfl

/-! ## Claim theorems -/

/-- C1: Mass conservation.  For every diceCount ≥ 1 and sides ≥ 2 (with a
non-cancelled signal) the probability masses of the PMF produced by the
builder sum to 1, and the advantage/disadvantage transform preserves this:
from any base PMF whose masses sum to 1 it returns a PMF whose masses sum
to 1. -/
theorem C1_mass_conservation (n : Int) (s : Nat) (m : Int)
    (hn : 1 ≤ n) (hs : 2 ≤ s) :
    ((calculateBaseDistribution n s m (fun _ => false)).map
        (fun r => r.probability)).sum = 1
    ∧ ∀ (base : List ProbabilityResult) (mode : RollMode),
        (base.map (fun r => r.probability)).sum = 1 →
        ((calculateAdvantageDisadvantageDistribution base mode
            (fun _ => false)).map (fun r => r.probability)).sum = 1 := by
  constructor
  · rw [calculateBaseDistribution_never, List.map_map]
    have hcomp : ((fun r : ProbabilityResult => r.probability)
        ∘ (fun e : Int × ℚ =>
          { result := e.1 + m, probability := e.2,
            percentage := (jsRound (e.2 * 1000) : ℚ) / 10
            : ProbabilityResult }))
        = fun e : Int × ℚ => e.2 := rfl
    rw [hcomp]
    exact totalMass_iterate s (by omega) _
  · intro base mode hT
    unfold calculateAdvantageDisadvantageDistribution
    have hadv := advOuter_of_never mode base (fun _ => false) (fun _ => rfl)
      base 0 []
    simp only [hadv]
    rw [sum_probability_toResults, totalMass_eq_sumBy_one, sumBy_advFold]
    have hinner : ∀ first : ProbabilityResult,
        (base.map (fun second =>
          (fun _ : Int => (1 : ℚ)) (takenValue mode first.result second.result)
            * (first.probability * second.probability))).sum
          = first.probability * (base.map (fun r => r.probability)).sum := by
      intro first
      have hfn : (fun second : ProbabilityResult =>
          (fun _ : Int => (1 : ℚ)) (takenValue mode first.result second.result)
            * (first.probability * second.probability))
          = fun second => first.probability * second.probability := by
        funext second
        simp
      rw [hfn]
      exact List.sum_map_mul_left base (fun r => r.probability) first.probability
    rw [List.map_congr_left (fun first _ => hinner first)]
    rw [List.sum_map_mul_right, hT]
    norm_num

/-- C1 witness: 2d2 masses sum to 1; the advantage transform of the
one-point PMF at 3 has masses summing to 1. -/
theorem C1_mass_conservation_witness :
    ((calculateBaseDistribution 2 2 0 (fun _ => false)).map
        (fun r => r.probability)).sum = 1
    ∧ ((calculateAdvantageDisadvantageDistribution
          [{ result := 3, probability := 1, percentage := 100 }]
          RollMode.advantage (fun _ => false)).map
        (fun r => r.probability)).sum = 1 := by
  have h := C1_mass_conservation 2 2 0 (by norm_num) (by norm_num)
  exact ⟨h.1, h.2 [{ result := 3, probability := 1, percentage := 100 }]
    RollMode.advantage (by simp)⟩

/-- C5: Modifier shift invariance.  For diceCount ≥ 1 and sides ≥ 2, the
build with modifier `m` is exactly the build with modifier 0 with every
outcome key shifted by `m` and every probability (hence every percentage)
unchanged. -/
theorem C5_modifier_shift (n : Int) (s : Nat) (m : Int)
    (hn : 1 ≤ n) (hs : 2 ≤ s) :
    calculateBaseDistribution n s m (fun _ => false)
      = (calculateBaseDistribution n s 0 (fun _ => false)).map
          (fun r => { result := r.result + m, probability := r.probability,
                      percentage := r.percentage : ProbabilityResult }) := by
  rw [calculateBaseDistribution_never, calculateBaseDistribution_never,
    List.map_map]
  apply List.map_congr_left
  intro e _
  simp only [Function.comp_apply]
  rw [ProbabilityResult.mk.injEq]
  refine ⟨by omega, rfl, rfl⟩

/-- C5 witness: `build(1, 6, 10)` is `build(1, 6, 0)` with every key
shifted by 10 and probabilities untouched. -/
theorem C5_modifier_shift_witness :
    calculateBaseDistribution 1 6 10 (fun _ => false)
      = (calculateBaseDistribution 1 6 0 (fun _ => false)).map
          (fun r => { result := r.result + 10, probability := r.probability,
                      percentage := r.percentage : ProbabilityResult }) :=
  C5_modifier_shift 1 6 10 (by norm_num) (by norm_num)

/-- C6: Output shape.  For diceCount ≥ 1, sides ≥ 2 and any modifier, the
non-cancelled build lists exactly the consecutive integers from
`diceCount + modifier` to `diceCount * sides + modifier` as outcome keys,
in ascending order, with no other keys. -/
theorem C6_output_shape (n : Int) (s : Nat) (m : Int)
    (hn : 1 ≤ n) (hs : 2 ≤ s) :
    (calculateBaseDistribution n s m (fun _ => false)).map (fun r => r.result)
      = intRange (n + m) (n * s + m) := by
  have hkeys : keys ((convolveStep s)^[(n - 1).toNat] (singleDie s))
      = intRange (1 + ((n - 1).toNat : Int))
          ((s : Int) + ((n - 1).toNat : Int) * s) :=
    sorted_eq_intRange _ _ _ (sorted_keys_iterate s _)
      (mem_keys_iterate s (by omega) _)
  rw [calculateBaseDistribution_never, List.map_map]
  have hcomp : ((fun r : ProbabilityResult => r.result)
      ∘ (fun e : Int × ℚ =>
        { result := e.1 + m, probability := e.2,
          percentage := (jsRound (e.2 * 1000) : ℚ) / 10
          : ProbabilityResult }))
      = fun e : Int × ℚ => e.1 + m := rfl
  rw [hcomp]
  have hshift : ((convolveStep s)^[(n - 1).toNat] (singleDie s)).map
      (fun e : Int × ℚ => e.1 + m)
      = (keys ((convolveStep s)^[(n - 1).toNat] (singleDie s))).map
          (fun k => k + m) := by
    unfold keys
    rw [List.map_map]
    rfl
  rw [hshift, hkeys, intRange_map_add]
  have ht : ((n - 1).toNat : Int) = n - 1 := by omega
  rw [ht]
  have hlo : 1 + (n - 1) + m = n + m := by ring
  have hhi : (s : Int) + (n - 1) * s + m = n * s + m := by ring
  rw [hlo, hhi]

/-- C6 witness: `build(2, 6, 3)` has outcome keys exactly 5..15. -/
theorem C6_output_shape_witness :
    (calculateBaseDistribution 2 6 3 (fun _ => false)).map (fun r => r.result)
      = intRange 5 15 := by
  have h := C6_output_shape 2 6 3 (by norm_num) (by norm_num)
  rw [h]
  norm_num

/-- C10: for every sides ≥ 1, modifier, and diceCount ≤ 1 (including 0 and
negative values), a non-cancelled normal-mode `calculateDistribution`
returns the single-die uniform distribution over
`{1 + modifier .. sides + modifier}` — each mass `1/sides`, a nonempty
result, no error path taken (the convolution loop does not run). -/
theorem C10_low_dice_count (n : Int) (s : Nat) (m : Int)
    (hn : n ≤ 1) (hs : 1 ≤ s) :
    (calculateDistribution n s m RollMode.normal (fun _ => false)).map
        (fun r => r.result) = intRange (1 + m) ((s : Int) + m)
    ∧ (∀ r ∈ calculateDistribution n s m RollMode.normal (fun _ => false),
        r.probability = 1 / (s : ℚ))
    ∧ calculateDistribution n s m RollMode.normal (fun _ => false) ≠ [] := by
  have hk : (n - 1).toNat = 0 := by omega
  have hbase : calculateBaseDistribution n s m (fun _ => false)
      = (intRange 1 s).map (fun k =>
          { result := k + m, probability := 1 / (s : ℚ),
            percentage := (jsRound ((1 / (s : ℚ)) * 1000) : ℚ) / 10
            : ProbabilityResult }) := by
    rw [calculateBaseDistribution_never, hk, Function.iterate_zero_apply,
      singleDie_eq, List.map_map]
    rfl
  have hne : calculateBaseDistribution n s m (fun _ => false) ≠ [] := by
    rw [hbase]
    intro hcontra
    have h1 : (1 : Int) ∈ intRange 1 s := (mem_intRange 1 s 1).mpr
      ⟨le_refl 1, by exact_mod_cast hs⟩
    rw [List.map_eq_nil_iff] at hcontra
    rw [hcontra] at h1
    exact absurd h1 (List.not_mem_nil 1)
  have hdisp : calculateDistribution n s m RollMode.normal (fun _ => false)
      = calculateBaseDistribution n s m (fun _ => false) := by
    unfold calculateDistribution
    rw [if_neg, if_pos rfl]
    rintro (habs | habs)
    · exact Bool.false_ne_true habs
    · exact hne habs
  refine ⟨?_, ?_, ?_⟩
  · rw [hdisp, hbase, List.map_map]
    have hcomp : ((fun r : ProbabilityResult => r.result)
        ∘ (fun k : Int =>
          { result := k + m, probability := 1 / (s : ℚ),
            percentage := (jsRound ((1 / (s : ℚ)) * 1000) : ℚ) / 10
            : ProbabilityResult }))
        = fun k : Int => k + m := rfl
    rw [hcomp, intRange_map_add]
  · intro r hr
    rw [hdisp, hbase] at hr
    obtain ⟨k, _, rfl⟩ := List.mem_map.mp hr
    rfl
  · rw [hdisp]
    exact hne

/-- C10 witness: `calculateDistribution(0, 6, 2)` in normal mode is the
uniform d6 shifted by 2: keys 3..8, each mass 1/6, nonempty. -/
theorem C10_low_dice_count_witness :
    (calculateDistribution 0 6 2 RollMode.normal (fun _ => false)).map
        (fun r => r.result) = intRange 3 8
    ∧ (∀ r ∈ calculateDistribution 0 6 2 RollMode.normal (fun _ => false),
        r.probability = 1 / (6 : ℚ))
    ∧ calculateDistribution 0 6 2 RollMode.normal (fun _ => false) ≠ [] := by
  have h := C10_low_dice_count 0 6 2 (by norm_num) (by norm_num)
  refine ⟨?_, h.2.1, h.2.2⟩
  rw [h.1]
  norm_num

/-! ## Goal aggregation -/

/-- Generic shape of the goal fold: accumulating the probabilities of the
rows selected by `P`. -/
lemma goal_foldl (P : ProbabilityResult → Bool) :
    ∀ (L : List ProbabilityResult) (a : ℚ),
      L.foldl (fun tot r => if P r then tot + r.probability else tot) a
        = a + ((L.filter P).map (fun r => r.probability)).sum := by
  intro L
  induction L with
  | nil =>
    intro a
    simp
  | cons r rest ih =>
    intro a
    rw [List.foldl_cons]
    by_cases h : P r
    · rw [if_pos h, ih, List.filter_cons_of_pos h, List.map_cons,
        List.sum_cons]
      ring
    · rw [if_neg h, ih, List.filter_cons_of_neg h]

/-- Spec-side aggregate (§4.3, Exactly): sum of mass at key `= t`. -/
def specMassExactly (results : List ProbabilityResult) (t : Int) : ℚ :=
  ((results.filter (fun r => r.result == t)).map (fun r => r.probability)).sum

/-- Spec-side aggregate (§4.3, AtLeast): sum of mass at all keys `≥ t`. -/
def specMassAtLeast (results : List ProbabilityResult) (t : Int) : ℚ :=
  ((results.filter (fun r => decide (t ≤ r.result))).map
    (fun r => r.probability)).sum

/-- Spec-side aggregate (§4.3, AtMost): sum of mass at all keys `≤ t`. -/
def specMassAtMost (results : List ProbabilityResult) (t : Int) : ℚ :=
  ((results.filter (fun r => decide (r.result ≤ t))).map
    (fun r => r.probability)).sum

/-- C3: Goal aggregation semantics.  Over the full (unfiltered) row list,
`calculateGoalProbability` computes the sum of mass at the key equal to the
threshold for Exactly, over all keys ≥ it for AtLeast (`orHigher`), over
all keys ≤ it for AtMost (`orLower`); a threshold absent from the PMF gives
the valid answer 0, not an error. -/
theorem C3_goal_aggregation (results : List ProbabilityResult) (t : Int) :
    calculateGoalProbability results t GoalComparison.exactly
        = specMassExactly results t
    ∧ calculateGoalProbability results t GoalComparison.orHigher
        = specMassAtLeast results t
    ∧ calculateGoalProbability results t GoalComparison.orLower
        = specMassAtMost results t
    ∧ ((∀ r ∈ results, r.result ≠ t) →
        calculateGoalProbability results t GoalComparison.exactly = 0) := by
  have h1 : calculateGoalProbability results t GoalComparison.exactly
      = specMassExactly results t := by
    unfold calculateGoalProbability specMassExactly
    rw [goal_foldl (fun r => r.result == t) results 0, zero_add]
  have h2 : calculateGoalProbability results t GoalComparison.orHigher
      = specMassAtLeast results t := by
    unfold calculateGoalProbability specMassAtLeast
    rw [goal_foldl (fun r => decide (t ≤ r.result)) results 0, zero_add]
  have h3 : calculateGoalProbability results t GoalComparison.orLower
      = specMassAtMost results t := by
    unfold calculateGoalProbability specMassAtMost
    rw [goal_foldl (fun r => decide (r.result ≤ t)) results 0, zero_add]
  refine ⟨h1, h2, h3, ?_⟩
  intro habsent
  rw [h1]
  unfold specMassExactly
  have hfilter : results.filter (fun r => r.result == t) = [] := by
    rw [List.filter_eq_nil_iff]
    intro r hr
    simpa using habsent r hr
  rw [hfilter]
  rfl

/-- C3 witness: a threshold absent from a one-row PMF yields probability 0
for Exactly. -/
theorem C3_goal_aggregation_witness :
    calculateGoalProbability
        [{ result := 3, probability := 1, percentage := 100 }]
        10 GoalComparison.exactly = 0 := by
  have h := C3_goal_aggregation
    [{ result := 3, probability := 1, percentage := 100 }] 10
  refine h.2.2.2 ?_
  intro r hr
  rw [List.mem_singleton] at hr
  rw [hr]
  decide

/-! ## Presentation formulas -/

lemma percentage_mem_toResults (d : PMap) (r : ProbabilityResult)
    (hr : r ∈ toResults d) :
    r.percentage = (jsRound (r.probability * 1000) : ℚ) / 10 := by
  obtain ⟨e, he, rfl⟩ := (mem_toResults d r).mp hr
  rfl

/-- C8: Percentage formula.  Every row produced by the engine — base rows,
advantage/disadvantage rows, and goal answers — carries
`percentage = round(probability × 1000) / 10`, and the rounding never
touches the probability masses themselves: the probabilities in the build
output are exactly the masses of the underlying exact convolution map. -/
theorem C8_percentage_formula :
    (∀ (n : Int) (s : Nat) (m : Int) (c : Nat → Bool)
        (r : ProbabilityResult), r ∈ calculateBaseDistribution n s m c →
        r.percentage = (jsRound (r.probability * 1000) : ℚ) / 10)
    ∧ (∀ (base : List ProbabilityResult) (mode : RollMode) (c : Nat → Bool)
        (r : ProbabilityResult),
        r ∈ calculateAdvantageDisadvantageDistribution base mode c →
        r.percentage = (jsRound (r.probability * 1000) : ℚ) / 10)
    ∧ (∀ (results : List ProbabilityResult) (g : Int)
        (comp : GoalComparison) (gr : GoalResult),
        calculateGoalResult results g comp = some gr →
        gr.percentage = (jsRound (gr.probability * 1000) : ℚ) / 10)
    ∧ (∀ (n : Int) (s : Nat) (m : Int),
        (calculateBaseDistribution n s m (fun _ => false)).map
            (fun r => r.probability)
          = ((convolveStep s)^[(n - 1).toNat] (singleDie s)).map Prod.snd) := by
  refine ⟨?_, ?_, ?_, ?_⟩
  · intro n s m c r hr
    unfold calculateBaseDistribution at hr
    cases hloop : convolveLoop s c (n - 1).toNat 0 (singleDie s) with
    | none =>
      simp only [hloop] at hr
      exact absurd hr (List.not_mem_nil r)
    | some d =>
      simp only [hloop] at hr
      split_ifs at hr with hc
      · exact absurd hr (List.not_mem_nil r)
      · exact percentage_mem_toResults _ r hr
  · intro base mode c r hr
    unfold calculateAdvantageDisadvantageDistribution at hr
    cases hadv : advOuter mode base c base 0 [] with
    | none =>
      simp only [hadv] at hr
      exact absurd hr (List.not_mem_nil r)
    | some d =>
      simp only [hadv] at hr
      exact percentage_mem_toResults _ r hr
  · intro results g comp gr hgr
    unfold calculateGoalResult at hgr
    by_cases hres : results = []
    · rw [if_pos hres] at hgr
      exact Option.noConfusion hgr
    · rw [if_neg hres] at hgr
      simp only [Option.some.injEq] at hgr
      rw [← hgr]
  · intro n s m
    rw [calculateBaseDistribution_never, List.map_map]
    rfl

/-- C8 witness: a row of the 2d2 build and the goal answer on a one-row
PMF both satisfy the rounding formula, and the 1d2 probabilities are the
raw map masses. -/
theorem C8_percentage_formula_witness :
    (∀ r : ProbabilityResult,
      r ∈ calculateBaseDistribution 2 2 0 (fun _ => false) →
      r.percentage = (jsRound (r.probability * 1000) : ℚ) / 10)
    ∧ (calculateBaseDistribution 1 2 0 (fun _ => false)).map
        (fun r => r.probability)
      = ((convolveStep 2)^[(0 : Int).toNat] (singleDie 2)).map Prod.snd := by
  refine ⟨fun r hr => C8_percentage_formula.1 2 2 0 (fun _ => false) r hr, ?_⟩
  have h := C8_percentage_formula.2.2.2 1 2 0
  simpa using h

/-- C9: Sub-threshold display rule.  A row whose raw probability `p`
satisfies `0 < p < 0.001` is formatted as the string `"<0.1"`; any other
row (including `p = 0` and `p ≥ 0.001`) is formatted as the percentage
field rendered with one decimal place. -/
theorem C9_subthreshold_format (p pct : ℚ) :
    (0 < p ∧ p < 1/1000 → formatPercentage p pct = "<0.1")
    ∧ ((p = 0 ∨ 1/1000 ≤ p) → formatPercentage p pct = toFixed1 pct) := by
  constructor
  · intro h
    unfold formatPercentage
    rw [if_pos h]
  · intro h
    unfold formatPercentage
    rw [if_neg]
    rintro ⟨h1, h2⟩
    rcases h with h | h
    · rw [h] at h1
      exact lt_irrefl 0 h1
    · exact absurd h (not_le.mpr h2)

/-- C9 witness: probability 1/2000 formats as `"<0.1"`; probability 0 with
percentage 0 renders as the fixed one-decimal string `"0.0"`. -/
theorem C9_subthreshold_format_witness :
    formatPercentage (1/2000) (1/10) = "<0.1"
    ∧ formatPercentage 0 0 = toFixed1 0 :=
  ⟨(C9_subthreshold_format (1/2000) (1/10)).1 (by norm_num),
   (C9_subthreshold_format 0 0).2 (Or.inl rfl)⟩

/-! ## Cancellation -/

lemma calculateBaseDistribution_dichotomy (n : Int) (s : Nat) (m : Int)
    (c : Nat → Bool) :
    calculateBaseDistribution n s m c = []
      ∨ calculateBaseDistribution n s m c
          = calculateBaseDistribution n s m (fun _ => false) := by
  unfold calculateBaseDistribution
  rcases convolveLoop_dichotomy s c (n - 1).toNat 0 (singleDie s) with h | h
  · left
    simp only [h]
  · by_cases hc : c (n - 1).toNat
    · left
      simp only [h]
      rw [if_pos hc]
    · right
      simp only [h,
        convolveLoop_of_never s (fun _ => false) (fun _ => rfl) (n - 1).toNat 0
          (singleDie s)]
      rw [if_neg hc]
      have : ¬ ((fun _ : Nat => false) (n - 1).toNat = true) :=
        Bool.false_ne_true
      rw [if_neg this]

lemma calculateBaseDistribution_all_true (n : Int) (s : Nat) (m : Int)
    (c : Nat → Bool) (hc : ∀ i, c i = true) :
    calculateBaseDistribution n s m c = [] := by
  unfold calculateBaseDistribution
  rcases convolveLoop_dichotomy s c (n - 1).toNat 0 (singleDie s) with h | h
  · simp only [h]
  · simp only [h]
    rw [if_pos (hc ((n - 1).toNat))]

lemma calcAdvDis_never (base : List ProbabilityResult) (mode : RollMode) :
    calculateAdvantageDisadvantageDistribution base mode (fun _ => false)
      = toResults (base.foldl (fun a first => advInner mode first base a) []) := by
  unfold calculateAdvantageDisadvantageDistribution
  simp only [advOuter_of_never mode base (fun _ => false) (fun _ => rfl) base 0 []]

lemma calcAdvDis_dichotomy (base : List ProbabilityResult) (mode : RollMode)
    (c : Nat → Bool) :
    calculateAdvantageDisadvantageDistribution base mode c = []
      ∨ calculateAdvantageDisadvantageDistribution base mode c
          = calculateAdvantageDisadvantageDistribution base mode
              (fun _ => false) := by
  rw [calcAdvDis_never]
  unfold calculateAdvantageDisadvantageDistribution
  rcases advOuter_dichotomy mode base c base 0 [] with h | h
  · left
    simp only [h]
  · right
    simp only [h]

/-- If the flag reads true at some index the convolution loop is going to
check, the loop aborts with the cancelled result. -/
lemma convolveLoop_none_of_true (s : Nat) (c : Nat → Bool) :
    ∀ (rem i : Nat) (d : PMap),
      (∃ j, i ≤ j ∧ j < i + rem ∧ c j = true) →
      convolveLoop s c rem i d = none := by
  intro rem
  induction rem with
  | zero =>
    rintro i d ⟨j, hj1, hj2, _⟩
    omega
  | succ r ih =>
    rintro i d ⟨j, hj1, hj2, hcj⟩
    rw [convolveLoop]
    by_cases hci : c i
    · rw [if_pos hci]
    · rw [if_neg hci]
      apply ih
      refine ⟨j, ?_, by omega, hcj⟩
      by_cases heq : j = i
      · subst heq
        exact absurd hcj hci
      · omega

/-- If the flag reads true at any of the base computation's own checks
(a convolution-step boundary or the final pre-processing check), the base
call returns the empty result. -/
lemma calculateBaseDistribution_empty_of_true (n : Int) (s : Nat) (m : Int)
    (c : Nat → Bool) (h : ∃ j, j ≤ (n - 1).toNat ∧ c j = true) :
    calculateBaseDistribution n s m c = [] := by
  obtain ⟨j, hj, hcj⟩ := h
  unfold calculateBaseDistribution
  by_cases hlt : j < (n - 1).toNat
  · have hnone := convolveLoop_none_of_true s c (n - 1).toNat 0 (singleDie s)
      ⟨j, Nat.zero_le j, by omega, hcj⟩
    simp only [hnone]
  · have hjL : j = (n - 1).toNat := by omega
    rcases convolveLoop_dichotomy s c (n - 1).toNat 0 (singleDie s) with hl | hl
    · simp only [hl]
    · simp only [hl]
      rw [if_pos (hjL ▸ hcj)]

/-- C7: Cancellation correctness.  A pre-cancelled flag (true at every
read) yields the empty result; so does a flag that reads true at any check
the call reaches up to the post-base guard — in particular one that becomes
true at some convolution-step boundary during the computation; and for
every trace whatsoever the result is either empty or exactly the full
uncancelled result — never a partial or corrupt PMF and never an
exception. -/
theorem C7_cancellation (n : Int) (s : Nat) (m : Int) (mode : RollMode)
    (c : Nat → Bool) :
    (calculateDistribution n s m mode c = []
      ∨ calculateDistribution n s m mode c
          = calculateDistribution n s m mode (fun _ => false))
    ∧ ((∀ i, c i = true) → calculateDistribution n s m mode c = [])
    ∧ ((∃ i, i ≤ (n - 1).toNat + 1 ∧ c i = true) →
        calculateDistribution n s m mode c = []) := by
  have hreach : (∃ i, i ≤ (n - 1).toNat + 1 ∧ c i = true) →
      calculateDistribution n s m mode c = [] := by
    rintro ⟨i, hi, hci⟩
    by_cases hbase : ∃ j, j ≤ (n - 1).toNat ∧ c j = true
    · have hb := calculateBaseDistribution_empty_of_true n s m c hbase
      unfold calculateDistribution
      rw [if_pos (Or.inr hb)]
    · have hiL : i = (n - 1).toNat + 1 := by
        by_contra hne
        exact hbase ⟨i, by omega, hci⟩
      unfold calculateDistribution
      rw [if_pos (Or.inl (hiL ▸ hci))]
  refine ⟨?_, ?_, hreach⟩
  · unfold calculateDistribution
    rcases calculateBaseDistribution_dichotomy n s m c with hb | hb
    · left
      rw [if_pos (Or.inr hb)]
    · by_cases hc : c ((n - 1).toNat + 1)
      · left
        rw [if_pos (Or.inl hc)]
      · by_cases hbe : calculateBaseDistribution n s m c = []
        · left
          rw [if_pos (Or.inr hbe)]
        · have hbe' : calculateBaseDistribution n s m (fun _ => false) ≠ [] := by
            rw [← hb]
            exact hbe
          have hguard1 : ¬ (c ((n - 1).toNat + 1) = true
              ∨ calculateBaseDistribution n s m c = []) := by
            rintro (h1 | h1)
            · exact hc h1
            · exact hbe h1
          have hguard2 : ¬ ((fun _ : Nat => false) ((n - 1).toNat + 1) = true
              ∨ calculateBaseDistribution n s m (fun _ => false) = []) := by
            rintro (h1 | h1)
            · exact Bool.false_ne_true h1
            · exact hbe' h1
          rw [if_neg hguard1, if_neg hguard2]
          by_cases hmode : mode = RollMode.normal
          · right
            rw [if_pos hmode, if_pos hmode, hb]
          · rw [if_neg hmode, if_neg hmode, hb]
            exact calcAdvDis_dichotomy _ mode _
  · intro hc
    exact hreach ⟨0, by omega, hc 0⟩

/-- C7 witness: a 3d6 request returns the empty result both with the
always-true (pre-cancelled) flag and with a flag that is false at the
first read and flips to true from the second read on — a mid-computation
cancellation at a convolution-step boundary. -/
theorem C7_cancellation_witness :
    calculateDistribution 3 6 0 RollMode.normal (fun _ => true) = []
    ∧ calculateDistribution 3 6 0 RollMode.normal
        (fun i => decide (1 ≤ i)) = [] :=
  ⟨(C7_cancellation 3 6 0 RollMode.normal (fun _ => true)).2.1 (fun _ => rfl),
   (C7_cancellation 3 6 0 RollMode.normal (fun i => decide (1 ≤ i))).2.2
     ⟨1, by norm_num, by norm_num⟩⟩

/-! ## Parameter validation (C2) -/

/-- C2 counterexample: the engine, called directly with the invalid
diceCount = 0 (and sides = 6), raises nothing and hands the caller a full
six-row PMF — bit-identical to the diceCount = 1 result, i.e. the invalid
parameter is silently clamped, contradicting "raises an InvalidParameter
error … the engine must not silently clamp". -/
theorem C2_counterexample :
    calculateDistribution 0 6 0 RollMode.normal (fun _ => false)
      = calculateDistribution 1 6 0 RollMode.normal (fun _ => false)
    ∧ (calculateDistribution 0 6 0 RollMode.normal
        (fun _ => false)).length = 6 := by
  have hk0 : ((0 : Int) - 1).toNat = 0 := rfl
  have hk1 : ((1 : Int) - 1).toNat = 0 := rfl
  have hbase : calculateBaseDistribution 0 6 0 (fun _ => false)
      = calculateBaseDistribution 1 6 0 (fun _ => false) := by
    rw [calculateBaseDistribution_never, calculateBaseDistribution_never,
      hk0, hk1]
  have hlen : (calculateBaseDistribution 0 6 0 (fun _ => false)).length = 6 := by
    rw [calculateBaseDistribution_never, hk0, Function.iterate_zero_apply,
      singleDie_eq, List.length_map, List.length_map, length_intRange]
    rfl
  have hne : calculateBaseDistribution 0 6 0 (fun _ => false) ≠ [] := by
    intro hcontra
    rw [hcontra] at hlen
    exact absurd hlen (by norm_num)
  have hne1 : calculateBaseDistribution 1 6 0 (fun _ => false) ≠ [] := by
    rw [← hbase]
    exact hne
  have hdisp0 : calculateDistribution 0 6 0 RollMode.normal (fun _ => false)
      = calculateBaseDistribution 0 6 0 (fun _ => false) := by
    unfold calculateDistribution
    rw [if_neg, if_pos rfl]
    rintro (habs | habs)
    · exact Bool.false_ne_true habs
    · exact hne habs
  have hdisp1 : calculateDistribution 1 6 0 RollMode.normal (fun _ => false)
      = calculateBaseDistribution 1 6 0 (fun _ => false) := by
    unfold calculateDistribution
    rw [if_neg, if_pos rfl]
    rintro (habs | habs)
    · exact Bool.false_ne_true habs
    · exact hne1 habs
  refine ⟨?_, ?_⟩
  · rw [hdisp0, hdisp1, hbase]
  · rw [hdisp0, hlen]

/-- C2 amended: the engine itself performs no parameter validation and has
no error path.  A direct call with diceCount < 1 (sides ≥ 1) silently
clamps — it returns exactly the diceCount = 1 PMF, a complete nonempty
result, not an error.  Validation of such a dice count lives in the caller:
the `CalculatorService.executeCalculation` guard rejects every
diceCount ≤ 0 (whatever the selected dice type), so the engine is never
invoked for it. -/
theorem C2_amended_no_validation (n : Int) (s : Nat) (m : Int)
    (t : Option Nat) (hn : n < 1) (hs : 1 ≤ s) :
    calculateBaseDistribution n s m (fun _ => false)
      = calculateBaseDistribution 1 s m (fun _ => false)
    ∧ calculateBaseDistribution n s m (fun _ => false) ≠ []
    ∧ executeCalculationRejects n t = true := by
  have hk : (n - 1).toNat = 0 := by omega
  have hk1 : ((1 : Int) - 1).toNat = 0 := rfl
  refine ⟨?_, ?_, ?_⟩
  · rw [calculateBaseDistribution_never, calculateBaseDistribution_never,
      hk, hk1]
  · rw [calculateBaseDistribution_never, hk, Function.iterate_zero_apply,
      singleDie_eq]
    intro hcontra
    have h1 : (1 : Int) ∈ intRange 1 s := (mem_intRange 1 s 1).mpr
      ⟨le_refl 1, by exact_mod_cast hs⟩
    rw [List.map_eq_nil_iff, List.map_eq_nil_iff] at hcontra
    rw [hcontra] at h1
    exact absurd h1 (List.not_mem_nil 1)
  · unfold executeCalculationRejects
    have h0 : decide (n ≤ 0) = true := decide_eq_true (by omega)
    rw [h0]
    rfl

/-- C2 amended witness: diceCount = 0, sides = 6 — the engine call equals
the 1d6 call, is nonempty, and the caller guard rejects the input. -/
theorem C2_amended_no_validation_witness :
    calculateBaseDistribution 0 6 0 (fun _ => false)
      = calculateBaseDistribution 1 6 0 (fun _ => false)
    ∧ calculateBaseDistribution 0 6 0 (fun _ => false) ≠ []
    ∧ executeCalculationRejects 0 (some 6) = true :=
  C2_amended_no_validation 0 6 0 (some 6) (by norm_num) (by norm_num)

/-! ## Advantage monotonicity (C4) -/

lemma list_sum_map_sub {α : Type} (L : List α) (f g : α → ℚ) :
    (L.map (fun x => f x - g x)).sum = (L.map f).sum - (L.map g).sum := by
  induction L with
  | nil => simp
  | cons x rest ih =>
    simp only [List.map_cons, List.sum_cons, ih]
    ring

lemma filter_map_sum_eq_indicator {α : Type} (L : List α) (P : α → Bool)
    (f : α → ℚ) :
    ((L.filter P).map f).sum
      = (L.map (fun x => (if P x then (1 : ℚ) else 0) * f x)).sum := by
  induction L with
  | nil => simp
  | cons x rest ih =>
    by_cases h : P x
    · rw [List.filter_cons_of_pos h, List.map_cons, List.sum_cons, ih,
        List.map_cons, List.sum_cons, if_pos h, one_mul]
    · rw [List.filter_cons_of_neg h, ih, List.map_cons, List.sum_cons,
        if_neg h, zero_mul, zero_add]

/-- The pairwise max/min accumulation, summed against any weight that
splits on `takenValue` by inclusion–exclusion, collapses to
`S·T + T·S − S·S` with `S` the weighted and `T` the plain mass of the base
rows. -/
lemma sumBy_advFold_split (w : Int → ℚ) (mode : RollMode)
    (base : List ProbabilityResult)
    (hsplit : ∀ a b : Int, w (takenValue mode a b) = w a + w b - w a * w b) :
    sumBy w (base.foldl (fun a first => advInner mode first base a) [])
      = (base.map (fun r => w r.result * r.probability)).sum
          * (base.map (fun r => r.probability)).sum
        + (base.map (fun r => r.probability)).sum
          * (base.map (fun r => w r.result * r.probability)).sum
        - (base.map (fun r => w r.result * r.probability)).sum
          * (base.map (fun r => w r.result * r.probability)).sum := by
  rw [sumBy_advFold]
  have hinner : ∀ first : ProbabilityResult,
      (base.map (fun second =>
        w (takenValue mode first.result second.result)
          * (first.probability * second.probability))).sum
      = (w first.result * first.probability)
          * (base.map (fun r => r.probability)).sum
        + first.probability
          * (base.map (fun r => w r.result * r.probability)).sum
        - (w first.result * first.probability)
          * (base.map (fun r => w r.result * r.probability)).sum := by
    intro first
    have hfn : (fun second : ProbabilityResult =>
        w (takenValue mode first.result second.result)
          * (first.probability * second.probability))
        = fun second =>
            ((w first.result * first.probability) * second.probability
              + first.probability * (w second.result * second.probability))
            - (w first.result * first.probability)
                * (w second.result * second.probability) := by
      funext second
      rw [hsplit]
      ring
    rw [hfn, list_sum_map_sub, List.sum_map_add, List.sum_map_mul_left,
      List.sum_map_mul_left, List.sum_map_mul_left]
  rw [List.map_congr_left (fun first _ => hinner first)]
  have houter : (fun first : ProbabilityResult =>
      (w first.result * first.probability)
          * (base.map (fun r => r.probability)).sum
        + first.probability
          * (base.map (fun r => w r.result * r.probability)).sum
        - (w first.result * first.probability)
          * (base.map (fun r => w r.result * r.probability)).sum)
      = fun first =>
        ((fun r : ProbabilityResult => w r.result * r.probability) first
            * (base.map (fun r => r.probability)).sum
          + (fun r : ProbabilityResult => r.probability) first
            * (base.map (fun r => w r.result * r.probability)).sum)
        - (fun r : ProbabilityResult => w r.result * r.probability) first
            * (base.map (fun r => w r.result * r.probability)).sum := by
    funext first
    ring
  rw [houter, list_sum_map_sub, List.sum_map_add, List.sum_map_mul_right,
    List.sum_map_mul_right, List.sum_map_mul_right]

lemma takenValue_advantage (a b : Int) :
    takenValue RollMode.advantage a b = max a b := by
  unfold takenValue
  rw [if_pos rfl]

lemma takenValue_disadvantage (a b : Int) :
    takenValue RollMode.disadvantage a b = min a b := by
  unfold takenValue
  rw [if_neg]
  intro h
  exact RollMode.noConfusion h

lemma ind_max_split (k : Int) (a b : Int) :
    (if k ≤ takenValue RollMode.advantage a b then (1 : ℚ) else 0)
      = (if k ≤ a then (1 : ℚ) else 0) + (if k ≤ b then (1 : ℚ) else 0)
        - (if k ≤ a then (1 : ℚ) else 0) * (if k ≤ b then (1 : ℚ) else 0) := by
  rw [takenValue_advantage]
  by_cases h1 : k ≤ a <;> by_cases h2 : k ≤ b
  · rw [if_pos h1, if_pos h2, if_pos (le_max_of_le_left h1)]
    ring
  · rw [if_pos h1, if_neg h2, if_pos (le_max_of_le_left h1)]
    ring
  · rw [if_neg h1, if_pos h2, if_pos (le_max_of_le_right h2)]
    ring
  · rw [if_neg h1, if_neg h2, if_neg (by rw [le_max_iff]; tauto)]
    ring

lemma ind_min_split (k : Int) (a b : Int) :
    (if takenValue RollMode.disadvantage a b ≤ k then (1 : ℚ) else 0)
      = (if a ≤ k then (1 : ℚ) else 0) + (if b ≤ k then (1 : ℚ) else 0)
        - (if a ≤ k then (1 : ℚ) else 0) * (if b ≤ k then (1 : ℚ) else 0) := by
  rw [takenValue_disadvantage]
  by_cases h1 : a ≤ k <;> by_cases h2 : b ≤ k
  · rw [if_pos h1, if_pos h2, if_pos (le_trans (min_le_left a b) h1)]
    ring
  · rw [if_pos h1, if_neg h2, if_pos (le_trans (min_le_left a b) h1)]
    ring
  · rw [if_neg h1, if_pos h2, if_pos (le_trans (min_le_right a b) h2)]
    ring
  · rw [if_neg h1, if_neg h2, if_neg (by rw [min_le_iff]; tauto)]
    ring

/-- Indicator weight for `outcome ≥ k`. -/
def indAtLeast (k : Int) : Int → ℚ := fun a => if k ≤ a then 1 else 0

/-- Indicator weight for `outcome ≤ k`. -/
def indAtMost (k : Int) : Int → ℚ := fun a => if a ≤ k then 1 else 0

lemma indAtLeast_split (k a b : Int) :
    indAtLeast k (takenValue RollMode.advantage a b)
      = indAtLeast k a + indAtLeast k b - indAtLeast k a * indAtLeast k b := by
  unfold indAtLeast
  exact ind_max_split k a b

lemma indAtMost_split (k a b : Int) :
    indAtMost k (takenValue RollMode.disadvantage a b)
      = indAtMost k a + indAtMost k b - indAtMost k a * indAtMost k b := by
  unfold indAtMost
  exact ind_min_split k a b

lemma specMassAtLeast_rows (l : List ProbabilityResult) (k : Int) :
    specMassAtLeast l k
      = (l.map (fun r => indAtLeast k r.result * r.probability)).sum := by
  unfold specMassAtLeast
  rw [filter_map_sum_eq_indicator]
  congr 1
  apply List.map_congr_left
  intro r _
  unfold indAtLeast
  by_cases h : k ≤ r.result <;> simp [h]

lemma specMassAtMost_rows (l : List ProbabilityResult) (k : Int) :
    specMassAtMost l k
      = (l.map (fun r => indAtMost k r.result * r.probability)).sum := by
  unfold specMassAtMost
  rw [filter_map_sum_eq_indicator]
  congr 1
  apply List.map_congr_left
  intro r _
  unfold indAtMost
  by_cases h : r.result ≤ k <;> simp [h]

lemma specMass_toResults (D : PMap) (w : Int → ℚ) (P : ProbabilityResult → Bool)
    (hP : ∀ e : Int × ℚ, (if P
        { result := e.1, probability := e.2,
          percentage := (jsRound (e.2 * 1000) : ℚ) / 10 : ProbabilityResult }
      then (1 : ℚ) else 0) = w e.1) :
    (((toResults D).filter P).map (fun r => r.probability)).sum
      = sumBy w D := by
  have hperm := List.Perm.sum_eq (List.Perm.map
    (fun r : ProbabilityResult => r.probability)
    (List.Perm.filter P (toResults_perm D)))
  rw [hperm, List.filter_map, List.map_map, filter_map_sum_eq_indicator]
  unfold sumBy
  congr 1
  apply List.map_congr_left
  intro e _
  have h := hP e
  simp only [Function.comp_apply]
  rw [h]

lemma indicator_sum_bounds (base : List ProbabilityResult) (w : Int → ℚ)
    (hw : ∀ a, w a = 0 ∨ w a = 1)
    (hpos : ∀ r ∈ base, 0 ≤ r.probability) :
    0 ≤ (base.map (fun r => w r.result * r.probability)).sum
    ∧ (base.map (fun r => w r.result * r.probability)).sum
        ≤ (base.map (fun r => r.probability)).sum := by
  constructor
  · apply List.sum_nonneg
    intro x hx
    obtain ⟨r, hr, rfl⟩ := List.mem_map.mp hx
    rcases hw r.result with h | h <;> rw [h]
    · simp
    · rw [one_mul]
      exact hpos r hr
  · have hsub := list_sum_map_sub base (fun r => r.probability)
      (fun r => w r.result * r.probability)
    have hnn : 0 ≤ (base.map
        (fun r => r.probability - w r.result * r.probability)).sum := by
      apply List.sum_nonneg
      intro x hx
      obtain ⟨r, hr, rfl⟩ := List.mem_map.mp hx
      rcases hw r.result with h | h <;> rw [h]
      · rw [zero_mul, sub_zero]
        exact hpos r hr
      · rw [one_mul, sub_self]
    rw [hsub] at hnn
    linarith

/-- C4: Advantage monotonicity.  For every base PMF (nonnegative masses
summing to 1) and every integer k, the advantage-transformed distribution
gives at least the base probability to `outcome ≥ k`; dually, the
disadvantage-transformed distribution gives at least the base probability
to `outcome ≤ k`. -/
theorem C4_advantage_monotonicity (base : List ProbabilityResult) (k : Int)
    (hpos : ∀ r ∈ base, 0 ≤ r.probability)
    (hsum : (base.map (fun r => r.probability)).sum = 1) :
    specMassAtLeast base k
      ≤ specMassAtLeast (calculateAdvantageDisadvantageDistribution base
          RollMode.advantage (fun _ => false)) k
    ∧ specMassAtMost base k
      ≤ specMassAtMost (calculateAdvantageDisadvantageDistribution base
          RollMode.disadvantage (fun _ => false)) k := by
  constructor
  · rw [calcAdvDis_never]
    have htrans : specMassAtLeast (toResults (base.foldl
        (fun a first => advInner RollMode.advantage first base a) [])) k
        = sumBy (indAtLeast k) (base.foldl
            (fun a first => advInner RollMode.advantage first base a) []) := by
      unfold specMassAtLeast
      apply specMass_toResults
      intro e
      unfold indAtLeast
      by_cases h : k ≤ e.1 <;> simp [h]
    rw [htrans,
      sumBy_advFold_split (indAtLeast k) RollMode.advantage base
        (indAtLeast_split k),
      hsum, specMassAtLeast_rows]
    have hb := indicator_sum_bounds base (indAtLeast k)
      (fun a => by
        unfold indAtLeast
        by_cases h : k ≤ a
        · right
          rw [if_pos h]
        · left
          rw [if_neg h]) hpos
    rw [hsum] at hb
    set S := (base.map
      (fun r => indAtLeast k r.result * r.probability)).sum with hSdef
    nlinarith [hb.1, hb.2, mul_nonneg hb.1 (sub_nonneg.mpr hb.2)]
  · rw [calcAdvDis_never]
    have htrans : specMassAtMost (toResults (base.foldl
        (fun a first => advInner RollMode.disadvantage first base a) [])) k
        = sumBy (indAtMost k) (base.foldl
            (fun a first => advInner RollMode.disadvantage first base a) []) := by
      unfold specMassAtMost
      apply specMass_toResults
      intro e
      unfold indAtMost
      by_cases h : e.1 ≤ k <;> simp [h]
    rw [htrans,
      sumBy_advFold_split (indAtMost k) RollMode.disadvantage base
        (indAtMost_split k),
      hsum, specMassAtMost_rows]
    have hb := indicator_sum_bounds base (indAtMost k)
      (fun a => by
        unfold indAtMost
        by_cases h : a ≤ k
        · right
          rw [if_pos h]
        · left
          rw [if_neg h]) hpos
    rw [hsum] at hb
    set S := (base.map
      (fun r => indAtMost k r.result * r.probability)).sum with hSdef
    nlinarith [hb.1, hb.2, mul_nonneg hb.1 (sub_nonneg.mpr hb.2)]

/-- C4 witness: for the two-point base PMF {1 ↦ 1/2, 2 ↦ 1/2} and k = 2,
both monotonicity inequalities hold. -/
theorem C4_advantage_monotonicity_witness :
    specMassAtLeast
        [{ result := 1, probability := 1/2, percentage := 50 },
         { result := 2, probability := 1/2, percentage := 50 }] 2
      ≤ specMassAtLeast (calculateAdvantageDisadvantageDistribution
          [{ result := 1, probability := 1/2, percentage := 50 },
           { result := 2, probability := 1/2, percentage := 50 }]
          RollMode.advantage (fun _ => false)) 2
    ∧ specMassAtMost
        [{ result := 1, probability := 1/2, percentage := 50 },
         { result := 2, probability := 1/2, percentage := 50 }] 2
      ≤ specMassAtMost (calculateAdvantageDisadvantageDistribution
          [{ result := 1, probability := 1/2, percentage := 50 },
           { result := 2, probability := 1/2, percentage := 50 }]
          RollMode.disadvantage (fun _ => false)) 2 :=
  C4_advantage_monotonicity
    [{ result := 1, probability := 1/2, percentage := 50 },
     { result := 2, probability := 1/2, percentage := 50 }] 2
    (by
      intro r hr
      rcases List.mem_cons.mp hr with rfl | hr'
      · norm_num
      · rcases List.mem_singleton.mp hr' with rfl
        norm_num)
    (by norm_num)
